import Mathlib

/-!
Verification of the transcript parser and speech-session logic of the
voice-expense web application.

The JavaScript source is embedded shallowly:

* Strings are modelled as `List Char`.
* JavaScript regular-expression matching is modelled by a small backtracking
  engine (`matchList`) that returns the list of all ways a pattern can match
  a prefix of the input, in backtracking priority order (greedy quantifiers
  try longer matches first, alternations are tried left to right).  The head
  of that list is the match the JavaScript engine produces at a given
  position; `reSearch` scans positions left to right, as `String.match` does.
* JavaScript numbers are modelled as exact rationals (`ℚ`).  IEEE-754
  rounding is not modelled; it does not affect positivity, and the numeric
  literals appearing in the claims are exactly representable.  `NaN` is
  modelled by `jsParseFloat` returning `none`; infinity is modelled by the
  finiteness test `jsFiniteQ` with the exact `parseFloat` overflow threshold.
* `toLowerCase` is modelled on the ASCII range, which covers every character
  class the parser's regular expressions distinguish.
-/

/-- The characters matched by the JavaScript regex class `\s` and removed by
`String.prototype.trim` (WhiteSpace plus LineTerminator). -/
def jsWsChars : List Char :=
  [' ', '\t', '\n', '\r', '\x0b', '\x0c', '\u00A0', '\u1680',
   '\u2000', '\u2001', '\u2002', '\u2003', '\u2004', '\u2005', '\u2006',
   '\u2007', '\u2008', '\u2009', '\u200A', '\u2028', '\u2029', '\u202F',
   '\u205F', '\u3000', '\uFEFF']

/-- JavaScript whitespace test (`\s`, `trim`). -/
def isJsWs (c : Char) : Bool := jsWsChars.contains c

/-- JavaScript digit test (`\d`, exactly the ASCII digits). -/
def isJsDigit (c : Char) : Bool := '0' ≤ c && c ≤ '9'

/-- The currency-symbol class `[\$£€]` of amount pattern 1. -/
def isCurrencySym (c : Char) : Bool := c == '$' || c == '£' || c == '€'

/-- The decimal-separator class `[.,]` of the numeric patterns. -/
def isDecSep (c : Char) : Bool := c == '.' || c == ','

/-- The class matched by `.` in a JavaScript regex without the `s` flag:
any character except a line terminator. -/
def isJsDot (c : Char) : Bool :=
  !(c == '\n' || c == '\r' || c == '\u2028' || c == '\u2029')

/-- The punctuation class `[.,!?;:]` stripped from description ends. -/
def isPunctCls (c : Char) : Bool :=
  c == '.' || c == ',' || c == '!' || c == '?' || c == ';' || c == ':'

/-- `String.prototype.toLowerCase`, restricted to the ASCII range (the only
range the parser's regular expressions distinguish). -/
def jsToLower (c : Char) : Char :=
  if 65 ≤ c.toNat ∧ c.toNat ≤ 90 then Char.ofNat (c.toNat + 32) else c

/-- Drop the longest suffix whose characters satisfy `p`. -/
def dropTrailWhile (p : Char → Bool) (l : List Char) : List Char :=
  (l.reverse.dropWhile p).reverse

/-- `String.prototype.trim`. -/
def jsTrim (l : List Char) : List Char :=
  dropTrailWhile isJsWs (l.dropWhile isJsWs)

/-- Capture groups: group index paired with captured text; the most recent
assignment is first, as `capGet` looks the index up front to back. -/
abbrev Caps := List (Nat × List Char)

/-- Record a capture. -/
def capSet (caps : Caps) (i : Nat) (v : List Char) : Caps := (i, v) :: caps

/-- Read a capture (empty if the group never matched). -/
def capGet (caps : Caps) (i : Nat) : List Char := (caps.lookup i).getD []

/-- Abstract syntax of the regular-expression fragment used by the source:
character classes, concatenation, ordered alternation, greedy option, greedy
star/plus over a character class, numbered capture groups and the `$`
end-of-input anchor. -/
inductive RE where
  | eps : RE
  | cls : (Char → Bool) → RE
  | seq : RE → RE → RE
  | alt : RE → RE → RE
  | opt : RE → RE
  | starCls : (Char → Bool) → RE
  | plusCls : (Char → Bool) → RE
  | grp : Nat → RE → RE
  | lineEnd : RE

/-- All ways `re` can match a prefix of `s`, as pairs of (remaining input,
captures), in JavaScript backtracking priority order: the head is the match
the JavaScript engine commits to at this position. -/
def matchList : RE → Caps → List Char → List (List Char × Caps)
  | .eps, caps, s => [(s, caps)]
  | .cls p, caps, s =>
    match s with
    | [] => []
    | c :: t => if p c then [(t, caps)] else []
  | .seq a b, caps, s =>
    (matchList a caps s).flatMap (fun rc => matchList b rc.2 rc.1)
  | .alt a b, caps, s => matchList a caps s ++ matchList b caps s
  | .opt r, caps, s => matchList r caps s ++ [(s, caps)]
  | .starCls p, caps, s =>
    let n := (s.takeWhile p).length
    (List.range (n + 1)).map (fun k => (s.drop (n - k), caps))
  | .plusCls p, caps, s =>
    let n := (s.takeWhile p).length
    (List.range n).map (fun k => (s.drop (n - k), caps))
  | .grp i r, caps, s =>
    (matchList r caps s).map
      (fun rc => (rc.1, capSet rc.2 i (s.take (s.length - rc.1.length))))
  | .lineEnd, caps, s =>
    match s with
    | [] => [([], caps)]
    | _ :: _ => []

/-- `String.prototype.match` without the `g` flag: scan start positions left
to right and return the first position's committed match, as the pair of
(matched substring `match[0]`, captures).  The start index is not returned;
the source recovers the location with `indexOf` instead. -/
def reSearch (re : RE) : List Char → Option (List Char × Caps)
  | [] =>
    match (matchList re [] []).head? with
    | some rc => some (([] : List Char), rc.2)
    | none => none
  | c :: t =>
    match (matchList re [] (c :: t)).head? with
    | some rc =>
      some ((c :: t).take ((c :: t).length - rc.1.length), rc.2)
    | none => reSearch re t

/-- Literal word: sequence of single-character classes. -/
def lit (l : List Char) : RE :=
  l.foldr (fun c r => RE.seq (RE.cls (fun x => x == c)) r) RE.eps

/-- The numeric core `\d+(?:[.,]\d{1,2})?` shared by all amount patterns. -/
def numRE : RE :=
  .seq (.plusCls isJsDigit)
    (.opt (.seq (.cls isDecSep)
      (.seq (.cls isJsDigit) (.opt (.cls isJsDigit)))))

/-- Amount pattern 1: `(?:[\$£€])\s*(\d+(?:[.,]\d{1,2})?)`. -/
def amountPattern1 : RE :=
  .seq (.cls isCurrencySym) (.seq (.starCls isJsWs) (.grp 1 numRE))

/-- The currency-word alternation
`dollars?|pounds?|euros?|usd|dollar|pound|euro`, in source order. -/
def currencyWordRE : RE :=
  .alt (.seq (lit ['d','o','l','l','a','r']) (.opt (.cls (fun x => x == 's'))))
    (.alt (.seq (lit ['p','o','u','n','d']) (.opt (.cls (fun x => x == 's'))))
      (.alt (.seq (lit ['e','u','r','o']) (.opt (.cls (fun x => x == 's'))))
        (.alt (lit ['u','s','d'])
          (.alt (lit ['d','o','l','l','a','r'])
            (.alt (lit ['p','o','u','n','d']) (lit ['e','u','r','o']))))))

/-- Amount pattern 2:
`(\d+(?:[.,]\d{1,2})?)\s*(?:dollars?|pounds?|euros?|usd|dollar|pound|euro)`. -/
def amountPattern2 : RE :=
  .seq (.grp 1 numRE) (.seq (.starCls isJsWs) currencyWordRE)

/-- Amount pattern 3 (bare-number fallback): `(\d+(?:[.,]\d{1,2})?)`. -/
def amountPattern3 : RE := .grp 1 numRE

/-- The delimiter regex `(.+)\s+on\s+(.+)`. -/
def onRE : RE :=
  .seq (.grp 1 (.plusCls isJsDot))
    (.seq (.plusCls isJsWs)
      (.seq (lit ['o','n'])
        (.seq (.plusCls isJsWs) (.grp 2 (.plusCls isJsDot)))))

/-- The delimiter regex `(.+)\s+for\s+(.+)`. -/
def forRE : RE :=
  .seq (.grp 1 (.plusCls isJsDot))
    (.seq (.plusCls isJsWs)
      (.seq (lit ['f','o','r'])
        (.seq (.plusCls isJsWs) (.grp 2 (.plusCls isJsDot)))))

/-- The filler-word alternation
`(?:spent|add|log|cost|expense|was|is|buy|get|paid|a|an|the)`, in source
order.  The source applies it with the `i` flag, but the text it is applied
to is already lower-cased. -/
def fillerWordsRE : RE :=
  .alt (lit ['s','p','e','n','t'])
    (.alt (lit ['a','d','d'])
      (.alt (lit ['l','o','g'])
        (.alt (lit ['c','o','s','t'])
          (.alt (lit ['e','x','p','e','n','s','e'])
            (.alt (lit ['w','a','s'])
              (.alt (lit ['i','s'])
                (.alt (lit ['b','u','y'])
                  (.alt (lit ['g','e','t'])
                    (.alt (lit ['p','a','i','d'])
                      (.alt (lit ['a'])
                        (.alt (lit ['a','n']) (lit ['t','h','e']))))))))))))

/-- Leading filler strip pattern `^(?:...)\s+`; anchored at the start, so it
is only ever tried at position 0. -/
def fillerLeadRE : RE := .seq fillerWordsRE (.plusCls isJsWs)

/-- Trailing filler strip pattern `\s+(?:...)$`. -/
def fillerTrailRE : RE := .seq (.plusCls isJsWs) (.seq fillerWordsRE .lineEnd)

/-- `description.replace(/^(?:spent|...|the)\s+/i, '')`: remove the match of
the start-anchored pattern, if any. -/
def stripLeadFiller (d : List Char) : List Char :=
  match (matchList fillerLeadRE [] d).head? with
  | some rc => rc.1
  | none => d

/-- `description.replace(/\s+(?:spent|...|the)$/i, '')`: the matched span,
if any, extends to the end of the string, so removing it keeps a prefix. -/
def stripTrailFiller (d : List Char) : List Char :=
  match reSearch fillerTrailRE d with
  | some rc => d.take (d.length - rc.1.length)
  | none => d

/-- `description.replace(/^[.,!?;:]+|[.,!?;:]+$/g, '')`.  With the `g` flag
this removes the leading punctuation run (the `^`-anchored branch, which can
only fire at position 0) and the trailing punctuation run (the `$`-anchored
branch); every other position has no match. -/
def dropPunctEnds (l : List Char) : List Char :=
  dropTrailWhile isPunctCls (l.dropWhile isPunctCls)

/-- Lines 105-109 of the parser: filler-word and punctuation cleanup applied
to the candidate description, with a `trim` after each `replace`. -/
def descCleanup (d : List Char) : List Char :=
  jsTrim (dropPunctEnds (jsTrim (stripTrailFiller (jsTrim (stripLeadFiller d)))))

/-- Description extraction (lines 86-109): delimiter keyword `on` first,
then `for`, otherwise the whole residual text; then cleanup. -/
def extractDescription (remaining : List Char) : List Char :=
  match reSearch onRE remaining with
  | some rc => descCleanup (jsTrim (capGet rc.2 2))
  | none =>
    match reSearch forRE remaining with
    | some rc => descCleanup (jsTrim (capGet rc.2 2))
    | none => descCleanup remaining

/-- Digit-string value (the value `parseFloat` assigns to a digit run). -/
def digitsToNat (l : List Char) : Nat :=
  l.foldl (fun n c => 10 * n + (c.toNat - 48)) 0

/-- `parseFloat`, on the strings this parser feed it: a cleaned captured
numeric string, i.e. a digit run optionally followed by `.` and a digit run
(signs, exponents and leading whitespace cannot occur in a capture of the
numeric patterns).  `none` models `NaN`. -/
def jsParseFloat (l : List Char) : Option ℚ :=
  let ds := l.takeWhile isJsDigit
  if ds.isEmpty then none
  else
    let rest := l.drop ds.length
    let fs := if rest.head? = some '.' then (rest.drop 1).takeWhile isJsDigit else []
    some (mkRat (digitsToNat ds * 10 ^ fs.length + digitsToNat fs) (10 ^ fs.length))

/-- `Number.isFinite` composed with `parseFloat` of a nonnegative decimal
string: the exact rational value is representable as a finite IEEE-754
double precisely when it is below the round-to-infinity threshold
`2^1024 - 2^970`. -/
def jsFiniteQ (q : ℚ) : Bool := q < ((2 ^ 1024 - 2 ^ 970 : ℕ) : ℚ)

/-- The amount-pattern loop (lines 43-52): try the three patterns in priority
order and return the first match as (captured numeric string, full matched
phrase `match[0]`). -/
def amountLoop (cur : List Char) : Option (List Char × List Char) :=
  match reSearch amountPattern1 cur with
  | some rc => some (capGet rc.2 1, rc.1)
  | none =>
    match reSearch amountPattern2 cur with
    | some rc => some (capGet rc.2 1, rc.1)
    | none =>
      match reSearch amountPattern3 cur with
      | some rc => some (capGet rc.2 1, rc.1)
      | none => none

/-- Amount extraction with validation (lines 43-68): first pattern match,
comma removal, `parseFloat`, and rejection of `NaN`, non-positive and
non-finite values.  Returns the amount and the full matched phrase. -/
def extractAmount (cur : List Char) : Option (ℚ × List Char) :=
  match amountLoop cur with
  | none => none
  | some nm =>
    match jsParseFloat (nm.1.filter (fun c => c ≠ ',')) with
    | none => none
    | some a => if a ≤ 0 ∨ jsFiniteQ a = false then none else some (a, nm.2)

/-- First index at which `sub` occurs in `s` (`String.prototype.indexOf`). -/
def indexOfSub (s sub : List Char) : Option Nat :=
  if sub.isPrefixOf s then some 0
  else
    match s with
    | [] => none
    | _ :: t => (indexOfSub t sub).map (· + 1)

/-- Lines 74-83: remove the first occurrence of the matched amount phrase.
When the phrase is found this is the `substring` splice of the found branch;
when it is absent (the defensive fallback branch) `replace` of a pattern
with no occurrence leaves the string unchanged, as returning `s` does. -/
def removeFirstOccur (s sub : List Char) : List Char :=
  match indexOfSub s sub with
  | some i => s.take i ++ s.drop (i + sub.length)
  | none => s

/-- `parseExpenseString` (src/unnamed/part_001, lines 16-122) over
`List Char`.  The non-string-input branch of the input validation is outside
the model; the empty/whitespace-transcript branch is the `jsTrim` guard. -/
def parseExpenseString (transcript : List Char) : Option (ℚ × List Char) :=
  if jsTrim transcript = [] then none
  else
    let cur := transcript.map jsToLower
    match extractAmount cur with
    | none => none
    | some am =>
      let remaining := jsTrim (removeFirstOccur cur am.2)
      let desc := extractDescription remaining
      if desc = [] then none else some (am.1, desc)

/-- One round of the specification's fall-through extraction for a single
pattern: first match of the pattern, validated; an invalid value rejects the
pattern.  Modelled from the spec: used only to state what the specification
describes, for comparison with `extractAmount`. -/
def tryPatternSpec (pat : RE) (cur : List Char) : Option ℚ :=
  match reSearch pat cur with
  | none => none
  | some rc =>
    match jsParseFloat ((capGet rc.2 1).filter (fun c => c ≠ ',')) with
    | none => none
    | some a => if a ≤ 0 ∨ jsFiniteQ a = false then none else some a

/-- Modelled from the spec: amount extraction in which a pattern whose first
match parses to a non-finite or non-positive value is rejected and extraction
falls through to the next pattern in the priority list, failing only when no
pattern yields a valid positive value. -/
def extractAmountSpec (cur : List Char) : Option ℚ :=
  ((tryPatternSpec amountPattern1 cur).orElse
    (fun _ => tryPatternSpec amountPattern2 cur)).orElse
    (fun _ => tryPatternSpec amountPattern3 cur)

/-- Requests the speech-session logic can issue to the host speech
capability. -/
inductive HostCmd where
  | createInstance : HostCmd
  | attachHandlers : HostCmd
  | startCapture : HostCmd
  | stopCapture : HostCmd
  deriving DecidableEq

/-- The state held by `useSpeechRecognition` (src/unnamed/part_004):
`isListening`, `transcript`, `error`, and whether `recognitionRef` holds an
instance. -/
structure SpeechState where
  isListening : Bool
  transcript : List Char
  error : Option (List Char)
  hasInstance : Bool
  deriving DecidableEq

/-- `startListening` (src/unnamed/part_004, lines 73-118).  `supported`
models `browserSupportsSpeechRecognition`; `startThrows` models whether the
host `start()` call throws synchronously (with its message).  Returns the
updated state and the requests issued to the host capability. -/
def startListening (supported : Bool) (startThrows : Option (List Char))
    (s : SpeechState) : SpeechState × List HostCmd :=
  if s.isListening then (s, [])
  else if supported = false then
    ({ s with error := some ("Browser does not support speech recognition.").data }, [])
  else
    let s1 : SpeechState := { s with transcript := [], error := none }
    let created :=
      if s1.hasInstance then (s1, ([] : List HostCmd))
      else ({ s1 with hasInstance := true }, [HostCmd.createInstance])
    let cmds := created.2 ++ [HostCmd.attachHandlers, HostCmd.startCapture]
    match startThrows with
    | none => ({ created.1 with isListening := true }, cmds)
    | some msg => ({ created.1 with error := some msg, isListening := false }, cmds)

/-- Observable steps of the transcript-processing effect of `ExpenseInput`
(src/src/components/Loader.jsx). -/
inductive PipeAction where
  | parseStarted : List Char → PipeAction
  | addInvoked : ℚ → List Char → PipeAction
  | warned : PipeAction
  deriving DecidableEq

/-- The transcript-processing effect of `ExpenseInput` (Loader.jsx, lines
117-174): runs only when a transcript is present and the `isProcessing` flag
is clear; parses, invokes the add-action on success (the code re-checks
truthiness of amount and description), warns otherwise, and finally clears
the flag.  Returns the actions taken and the final flag value. -/
def transcriptEffect (transcript : List Char) (isProcessing : Bool) :
    List PipeAction × Bool :=
  if transcript ≠ [] ∧ isProcessing = false then
    match parseExpenseString transcript with
    | some ad =>
      if ad.1 ≠ 0 ∧ ad.2 ≠ [] then
        ([PipeAction.parseStarted transcript, PipeAction.addInvoked ad.1 ad.2], false)
      else ([PipeAction.parseStarted transcript, PipeAction.warned], false)
    | none => ([PipeAction.parseStarted transcript, PipeAction.warned], false)
  else ([], isProcessing)

/-- The description candidate `g2` is the text strictly after an occurrence
of the delimiter keyword `kw` surrounded by whitespace and preceded by at
least one character, within the residual `r`; `post` is the (possibly
empty) part of `r` after the candidate that `.+` cannot consume (it begins
with a line terminator when non-empty). -/
def afterDelim (kw r g2 : List Char) : Prop :=
  ∃ pre w1 w2 post, r = pre ++ w1 ++ kw ++ w2 ++ g2 ++ post ∧
    pre ≠ [] ∧ w1 ≠ [] ∧ w2 ≠ [] ∧ g2 ≠ [] ∧
    (∀ c ∈ w1, isJsWs c = true) ∧ (∀ c ∈ w2, isJsWs c = true)

/-- A pattern that can match neither the empty input nor an input starting
with whitespace (every amount pattern starts with a symbol, digit or letter
class). -/
def NilWsFail (re : RE) : Prop :=
  (∀ caps, matchList re caps [] = []) ∧
  (∀ caps c l, isJsWs c = true → matchList re caps (c :: l) = [])

/-- Appending one whitespace character to the input shifts every match
result without changing match order, consumed text or captures. -/
def WsAdd1 (re : RE) : Prop :=
  ∀ c : Char, isJsWs c = true → ∀ (caps : Caps) (u : List Char),
    matchList re caps (u ++ [c])
      = (matchList re caps u).map (fun rc => (rc.1 ++ [c], rc.2))

/-! ### Basic lemmas about trimming -/

theorem dropTrailWhile_eq_rdropWhile (p : Char → Bool) (l : List Char) :
    dropTrailWhile p l = l.rdropWhile p := rfl

theorem jsTrim_eq (l : List Char) :
    jsTrim l = List.rdropWhile isJsWs (l.dropWhile isJsWs) := rfl

theorem dropWhile_eq_self_of_prefix {p : Char → Bool} {x y : List Char}
    (hxy : y <+: x) (hx : x.dropWhile p = x) : y.dropWhile p = y := by
  cases y with
  | nil => simp
  | cons c t =>
    obtain ⟨r, hr⟩ := hxy
    subst hr
    rw [List.cons_append, List.dropWhile_cons] at hx
    rw [List.dropWhile_cons]
    by_cases h : p c = true
    · exfalso
      simp only [h, if_true] at hx
      have hsuf := List.dropWhile_suffix (l := t ++ r) p
      rw [hx] at hsuf
      have hlen := hsuf.length_le
      simp at hlen
    · simp [h]

theorem jsTrim_idem (l : List Char) : jsTrim (jsTrim l) = jsTrim l := by
  rw [jsTrim_eq, jsTrim_eq]
  have h2 : (List.rdropWhile isJsWs (l.dropWhile isJsWs)).dropWhile isJsWs
      = List.rdropWhile isJsWs (l.dropWhile isJsWs) :=
    dropWhile_eq_self_of_prefix (List.rdropWhile_prefix _ _)
      (List.dropWhile_idempotent _ _)
  rw [h2, List.rdropWhile_idempotent]

theorem all_ws_of_jsTrim_nil {l : List Char} (h : jsTrim l = []) :
    ∀ c ∈ l, isJsWs c = true := by
  rw [jsTrim_eq, List.rdropWhile_eq_nil_iff] at h
  intro c hc
  rw [← List.takeWhile_append_dropWhile (p := isJsWs) (l := l)] at hc
  rcases List.mem_append.mp hc with h1 | h2
  · exact List.mem_takeWhile_imp h1
  · exact h c h2

theorem jsTrim_eq_nil_of_all_ws {l : List Char} (h : ∀ c ∈ l, isJsWs c = true) :
    jsTrim l = [] := by
  rw [jsTrim_eq, List.rdropWhile_eq_nil_iff]
  intro x hx
  exact h x ((List.dropWhile_suffix isJsWs).subset hx)

/-! ### Soundness of the matching engine: matches consume a prefix -/

theorem head?_mem {α : Type} {l : List α} {x : α} (h : l.head? = some x) :
    x ∈ l := by
  cases l with
  | nil => cases h
  | cons a t =>
    simp only [List.head?_cons, Option.some.injEq] at h
    rw [← h]
    exact List.mem_cons_self a t

theorem mem_matchList_seq {a b : RE} {caps : Caps} {s : List Char}
    {rc : List Char × Caps} :
    rc ∈ matchList (.seq a b) caps s ↔
      ∃ rc', rc' ∈ matchList a caps s ∧ rc ∈ matchList b rc'.2 rc'.1 := by
  simp [matchList]

theorem mem_matchList_grp {i : Nat} {r : RE} {caps : Caps} {s : List Char}
    {rc : List Char × Caps} :
    rc ∈ matchList (.grp i r) caps s ↔
      ∃ rc' ∈ matchList r caps s,
        (rc'.1, capSet rc'.2 i (s.take (s.length - rc'.1.length))) = rc := by
  have heq : matchList (.grp i r) caps s = (matchList r caps s).map
      (fun rc => (rc.1, capSet rc.2 i (s.take (s.length - rc.1.length)))) := rfl
  rw [heq, List.mem_map]

theorem matchList_suffix (re : RE) :
    ∀ (caps : Caps) (s : List Char) (rc : List Char × Caps),
    rc ∈ matchList re caps s → ∃ pre, s = pre ++ rc.1 := by
  induction re with
  | eps =>
    intro caps s rc h
    simp only [matchList, List.mem_singleton] at h
    exact ⟨[], by simp [h]⟩
  | cls p =>
    intro caps s rc h
    cases s with
    | nil => simp [matchList] at h
    | cons c t =>
      simp only [matchList] at h
      by_cases hp : p c
      · rw [if_pos hp] at h
        simp only [List.mem_singleton] at h
        exact ⟨[c], by simp [h]⟩
      · rw [if_neg hp] at h
        cases h
  | seq a b iha ihb =>
    intro caps s rc h
    obtain ⟨rc', h1, h2⟩ := mem_matchList_seq.mp h
    obtain ⟨p1, hp1⟩ := iha caps s rc' h1
    obtain ⟨p2, hp2⟩ := ihb rc'.2 rc'.1 rc h2
    exact ⟨p1 ++ p2, by rw [hp1, hp2, List.append_assoc]⟩
  | alt a b iha ihb =>
    intro caps s rc h
    simp only [matchList, List.mem_append] at h
    rcases h with h | h
    · exact iha caps s rc h
    · exact ihb caps s rc h
  | opt r ihr =>
    intro caps s rc h
    simp only [matchList, List.mem_append, List.mem_singleton] at h
    rcases h with h | h
    · exact ihr caps s rc h
    · exact ⟨[], by simp [h]⟩
  | starCls p =>
    intro caps s rc h
    simp only [matchList, List.mem_map, List.mem_range] at h
    obtain ⟨k, -, hk⟩ := h
    exact ⟨s.take ((s.takeWhile p).length - k), by rw [← hk]; simp⟩
  | plusCls p =>
    intro caps s rc h
    simp only [matchList, List.mem_map, List.mem_range] at h
    obtain ⟨k, -, hk⟩ := h
    exact ⟨s.take ((s.takeWhile p).length - k), by rw [← hk]; simp⟩
  | grp i r ihr =>
    intro caps s rc h
    simp only [matchList, List.mem_map] at h
    obtain ⟨rc', h1, h2⟩ := h
    obtain ⟨p1, hp1⟩ := ihr caps s rc' h1
    exact ⟨p1, by rw [← h2]; exact hp1⟩
  | lineEnd =>
    intro caps s rc h
    cases s with
    | nil =>
      simp only [matchList, List.mem_singleton] at h
      exact ⟨[], by simp [h]⟩
    | cons c t => simp [matchList] at h

theorem take_sub_of_append {pre rest : List Char} :
    (pre ++ rest).take ((pre ++ rest).length - rest.length) = pre := by
  rw [List.length_append, Nat.add_sub_cancel, List.take_left]

/-- Membership characterization for greedy plus over a class. -/
theorem mem_matchList_plusCls {p : Char → Bool} {caps : Caps} {s : List Char}
    {rc : List Char × Caps} (h : rc ∈ matchList (.plusCls p) caps s) :
    rc.2 = caps ∧ ∃ pre, s = pre ++ rc.1 ∧ pre ≠ [] ∧ ∀ c ∈ pre, p c = true := by
  simp only [matchList, List.mem_map, List.mem_range] at h
  obtain ⟨k, hk, hrc⟩ := h
  set n := (s.takeWhile p).length with hn
  have hjle : n - k ≤ n := Nat.sub_le n k
  have hj1 : 1 ≤ n - k := by omega
  have hnle : n ≤ s.length := by
    rw [hn]
    exact List.Sublist.length_le (List.takeWhile_sublist p)
  refine ⟨by rw [← hrc], s.take (n - k), by rw [← hrc]; simp, ?_, ?_⟩
  · intro he
    have := congrArg List.length he
    simp only [List.length_take, List.length_nil] at this
    omega
  · intro c hc
    have hpre : s.take (n - k) <+: s.takeWhile p := by
      have h1 : s.take (n - k) <+: s := List.take_prefix _ _
      have h2 : s.takeWhile p <+: s := List.takeWhile_prefix p
      refine List.prefix_of_prefix_length_le h1 h2 ?_
      simp only [List.length_take]
      omega
    exact List.mem_takeWhile_imp (hpre.subset hc)

/-- Membership characterization for a literal word. -/
theorem mem_matchList_lit (w : List Char) :
    ∀ (caps : Caps) (s : List Char) (rc : List Char × Caps),
    rc ∈ matchList (lit w) caps s → s = w ++ rc.1 ∧ rc.2 = caps := by
  induction w with
  | nil =>
    intro caps s rc h
    simp only [lit, List.foldr_nil, matchList, List.mem_singleton] at h
    simp [h]
  | cons c w ih =>
    intro caps s rc h
    simp only [lit, List.foldr_cons] at h
    obtain ⟨rc', h1, h2⟩ := mem_matchList_seq.mp h
    cases s with
    | nil => simp [matchList] at h1
    | cons a t =>
      simp only [matchList] at h1
      by_cases ha : a == c
      · rw [if_pos ha] at h1
        simp only [List.mem_singleton] at h1
        rw [h1] at h2
        simp only at h2
        obtain ⟨hs, hcaps⟩ := ih caps t rc h2
        have hac : a = c := by simpa using ha
        subst hac
        exact ⟨by rw [List.cons_append, ← hs], hcaps⟩
      · rw [if_neg ha] at h1
        cases h1

/-- Inversion of a successful `reSearch`: the input splits at the found
position and the result is the committed match there. -/
theorem reSearch_some_mem {re : RE} :
    ∀ {s m : List Char} {caps : Caps}, reSearch re s = some (m, caps) →
    ∃ pre suf rest, s = pre ++ suf ∧ (rest, caps) ∈ matchList re [] suf ∧
      m = suf.take (suf.length - rest.length) := by
  intro s
  induction s with
  | nil =>
    intro m caps h
    unfold reSearch at h
    cases hh : (matchList re [] []).head? with
    | none => rw [hh] at h; cases h
    | some rc =>
      rw [hh] at h
      have h' : (some (([] : List Char), rc.2) : Option (List Char × Caps))
          = some (m, caps) := h
      obtain ⟨h1, h2⟩ := Prod.mk.injEq .. ▸ Option.some.inj h'
      refine ⟨[], [], rc.1, by simp, ?_, by simp [← h1]⟩
      rw [← h2]
      exact head?_mem hh
  | cons c t ih =>
    intro m caps h
    unfold reSearch at h
    cases hh : (matchList re [] (c :: t)).head? with
    | none =>
      rw [hh] at h
      obtain ⟨pre, suf, rest, h1, h2, h3⟩ := ih h
      exact ⟨c :: pre, suf, rest, by rw [List.cons_append, h1], h2, h3⟩
    | some rc =>
      rw [hh] at h
      have h' : some ((c :: t).take ((c :: t).length - rc.1.length), rc.2)
          = some (m, caps) := h
      obtain ⟨h1, h2⟩ := Prod.mk.injEq .. ▸ Option.some.inj h'
      refine ⟨[], c :: t, rc.1, by simp, ?_, by simp [← h1]⟩
      rw [← h2]
      exact head?_mem hh

theorem capGet_capSet_self (caps : Caps) (i : Nat) (v : List Char) :
    capGet (capSet caps i v) i = v := by
  simp [capGet, capSet, List.lookup]

theorem reSearch_delim_decomp {kw r m : List Char} {caps : Caps}
    (h : reSearch
      (.seq (.grp 1 (.plusCls isJsDot))
        (.seq (.plusCls isJsWs)
          (.seq (lit kw)
            (.seq (.plusCls isJsWs) (.grp 2 (.plusCls isJsDot)))))) r
      = some (m, caps)) :
    afterDelim kw r (capGet caps 2) := by
  obtain ⟨skip, suf, rest, hsplit, hmem, -⟩ := reSearch_some_mem h
  obtain ⟨rc1, hm1, hrest1⟩ := mem_matchList_seq.mp hmem
  obtain ⟨rc1x, hm1x, heq1⟩ := mem_matchList_grp.mp hm1
  obtain ⟨-, g1, hsuf1, hg1ne, -⟩ := mem_matchList_plusCls hm1x
  rw [← heq1] at hrest1
  simp only at hrest1
  obtain ⟨rc2, hm2, hrest2⟩ := mem_matchList_seq.mp hrest1
  obtain ⟨hc2, w1, hw1, hw1ne, hw1ws⟩ := mem_matchList_plusCls hm2
  obtain ⟨rc3, hm3, hrest3⟩ := mem_matchList_seq.mp hrest2
  obtain ⟨hlit, hc3⟩ := mem_matchList_lit kw _ _ rc3 hm3
  obtain ⟨rc4, hm4, hrest4⟩ := mem_matchList_seq.mp hrest3
  obtain ⟨hc4, w2, hw2, hw2ne, hw2ws⟩ := mem_matchList_plusCls hm4
  obtain ⟨rc5, hm5, heq5⟩ := mem_matchList_grp.mp hrest4
  obtain ⟨-, g2, hg2, hg2ne, -⟩ := mem_matchList_plusCls hm5
  have hcaps : caps = capSet rc5.2 2 (rc4.1.take (rc4.1.length - rc5.1.length)) := by
    have := congrArg Prod.snd heq5
    simpa using this.symm
  have hg2take : rc4.1.take (rc4.1.length - rc5.1.length) = g2 := by
    rw [hg2, take_sub_of_append]
  have hcap : capGet caps 2 = g2 := by
    rw [hcaps, capGet_capSet_self, hg2take]
  refine ⟨skip ++ g1, w1, w2, rc5.1, ?_, ?_, hw1ne, hw2ne, ?_, hw1ws, hw2ws⟩
  · rw [hcap, hsplit, hsuf1, hw1, hlit, hw2, hg2]
    simp [List.append_assoc]
  · intro he
    rcases List.append_eq_nil.mp he with ⟨-, h2⟩
    exact hg1ne h2
  · rw [hcap]
    exact hg2ne

theorem extractDescription_nil : extractDescription [] = [] := by decide

set_option maxRecDepth 200000 in

/-- C4: description extraction on the residual text: the `on` delimiter
branch applies first and takes the text strictly after the found delimiter
occurrence, then the `for` branch, otherwise the whole residual is the
candidate; filler words and end punctuation are then stripped
(`descCleanup`); and whenever the residual is empty after trimming, the
whole parse fails with `null` — in particular on the transcript `$5`. -/
theorem claim_C4 :
    (∀ (r m : List Char) (caps : Caps), reSearch onRE r = some (m, caps) →
      extractDescription r = descCleanup (jsTrim (capGet caps 2)) ∧
      afterDelim (['o','n']) r (capGet caps 2)) ∧
    (∀ (r m : List Char) (caps : Caps), reSearch onRE r = none →
      reSearch forRE r = some (m, caps) →
      extractDescription r = descCleanup (jsTrim (capGet caps 2)) ∧
      afterDelim (['f','o','r']) r (capGet caps 2)) ∧
    (∀ r : List Char, reSearch onRE r = none → reSearch forRE r = none →
      extractDescription r = descCleanup r) ∧
    (∀ (t : List Char) (am : ℚ × List Char),
      extractAmount (t.map jsToLower) = some am →
      jsTrim (removeFirstOccur (t.map jsToLower) am.2) = [] →
      parseExpenseString t = none) ∧
    parseExpenseString (("$5").data) = none := by
  refine ⟨?_, ?_, ?_, ?_, by decide⟩
  · intro r m caps h
    constructor
    · unfold extractDescription
      rw [h]
    · exact reSearch_delim_decomp h
  · intro r m caps hon h
    constructor
    · unfold extractDescription
      rw [hon, h]
    · exact reSearch_delim_decomp h
  · intro r hon hfor
    unfold extractDescription
    rw [hon, hfor]
  · intro t am hea hrem
    unfold parseExpenseString
    split
    · rfl
    · simp only [hea, hrem, extractDescription_nil]
      simp

/-- Witness for C4, applying each universally quantified part at a concrete
input: the residual `spent  on coffee` (left by `Spent $10.50 on coffee`)
has an `on` delimiter occurrence, and the transcript `$5` parses to `null`
by the empty-residual rule. -/
theorem claim_C4_witness :
    (extractDescription (("spent on coffee").data)
        = descCleanup (jsTrim (("coffee").data)) ∧
      afterDelim (['o','n']) (("spent on coffee").data) (("coffee").data)) ∧
    parseExpenseString (("$5").data) = none := by
  constructor
  · have h := claim_C4.1 (("spent on coffee").data) (("spent on coffee").data)
      ((2, ("coffee").data) :: (1, ("spent").data) :: []) (by decide)
    simpa using h
  · exact claim_C4.2.2.2.2
/-! ### Properties of the validated amount and the cleaned description -/

theorem descCleanup_trimmed (d : List Char) :
    jsTrim (descCleanup d) = descCleanup d := by
  unfold descCleanup
  rw [jsTrim_idem]

theorem extractDescription_trimmed (r : List Char) :
    jsTrim (extractDescription r) = extractDescription r := by
  unfold extractDescription
  split
  · exact descCleanup_trimmed _
  · split
    · exact descCleanup_trimmed _
    · exact descCleanup_trimmed _

theorem extractAmount_valid {cur : List Char} {a : ℚ} {m0 : List Char}
    (h : extractAmount cur = some (a, m0)) : 0 < a ∧ jsFiniteQ a = true := by
  unfold extractAmount at h
  split at h
  · cases h
  · split at h
    · cases h
    · split at h
      · cases h
      · rename_i nm v hsome hv
        have h1 : v = a := congrArg Prod.fst (Option.some.inj h)
        subst h1
        push_neg at hv
        exact ⟨hv.1, by simpa using hv.2⟩

/-- An unfolding of `parseExpenseString` into its stages, for reasoning by
cases. -/
theorem parseExpenseString_eq (t : List Char) :
    parseExpenseString t =
      if jsTrim t = [] then none
      else
        match extractAmount (t.map jsToLower) with
        | none => none
        | some am =>
          let desc := extractDescription (jsTrim (removeFirstOccur (t.map jsToLower) am.2))
          if desc = [] then none else some (am.1, desc) := rfl

theorem parseExpenseString_some {t : List Char} {a : ℚ} {d : List Char}
    (h : parseExpenseString t = some (a, d)) :
    jsTrim t ≠ [] ∧
    ∃ m0, extractAmount (t.map jsToLower) = some (a, m0) ∧
      d = extractDescription (jsTrim (removeFirstOccur (t.map jsToLower) m0)) ∧
      d ≠ [] := by
  unfold parseExpenseString at h
  split at h
  · cases h
  · rename_i hg
    refine ⟨hg, ?_⟩
    simp only at h
    split at h
    · cases h
    · rename_i am ham
      split at h
      · cases h
      · rename_i hd
        obtain ⟨h1, h2⟩ := Prod.mk.injEq .. ▸ Option.some.inj h
        exact ⟨am.2, by rw [ham, ← h1], h2.symm, h2 ▸ hd⟩

/-- C1: whenever `parseExpenseString` returns a non-null result, the amount
is strictly positive and finite (never `NaN`, which is modelled by
`jsParseFloat` returning `none`, nor infinite), and the description is a
non-empty string with no leading or trailing whitespace. -/
theorem claim_C1 : ∀ (t : List Char) (a : ℚ) (d : List Char),
    parseExpenseString t = some (a, d) →
    0 < a ∧ jsFiniteQ a = true ∧ d ≠ [] ∧ jsTrim d = d := by
  intro t a d h
  obtain ⟨-, m0, hea, hdesc, hne⟩ := parseExpenseString_some h
  obtain ⟨hpos, hfin⟩ := extractAmount_valid hea
  refine ⟨hpos, hfin, hne, ?_⟩
  rw [hdesc]
  exact extractDescription_trimmed _

set_option maxRecDepth 200000 in
/-- Witness for C1 at the concrete transcript `Log 15 euro taxi`. -/
theorem claim_C1_witness :
    0 < (15 : ℚ) ∧ jsFiniteQ 15 = true ∧ ("taxi").data ≠ [] ∧
      jsTrim (("taxi").data) = ("taxi").data :=
  claim_C1 (("Log 15 euro taxi").data) 15 (("taxi").data) (by decide)

set_option maxRecDepth 200000 in
/-- C2: the three example vectors of the specification parse to exactly the
stated amount-description pairs. -/
theorem claim_C2 :
    parseExpenseString ("Spent $10.50 on coffee").data
      = some ((10.50 : ℚ), ("coffee").data) ∧
    parseExpenseString ("Add expense 5 dollars for lunch").data
      = some ((5 : ℚ), ("lunch").data) ∧
    parseExpenseString ("Log 15 euro taxi").data
      = some ((15 : ℚ), ("taxi").data) := by
  refine ⟨?_, by decide, by decide⟩
  have h : parseExpenseString ("Spent $10.50 on coffee").data
      = some (mkRat 21 2, ("coffee").data) := by decide
  have h2 : mkRat 21 2 = (10.50 : ℚ) := by
    rw [Rat.mkRat_eq_divInt, Rat.divInt_eq_div]; norm_num
  rw [h, h2]

set_option maxRecDepth 200000 in
/-- Counterexample to C3: on `£0 5 dollars on lunch` the first matching
pattern (pattern 1, matching `£0`) parses to `0`, and the whole parse
returns `null` immediately; under the claimed fall-through semantics
(`extractAmountSpec`) extraction would instead fall through to pattern 2 and
succeed with the valid positive value `5`. -/
theorem claim_C3_counterexample :
    parseExpenseString ("£0 5 dollars on lunch").data = none ∧
    extractAmountSpec (("£0 5 dollars on lunch").data.map jsToLower) = some 5 ∧
    amountLoop (("£0 5 dollars on lunch").data.map jsToLower)
      = some (("0").data, ("£0").data) := by decide

/-- C3 (amended): if the first pattern that matches yields a parsed value
that is non-finite or not positive, the whole parse fails immediately with
`null`; extraction does not fall through to later patterns. -/
theorem claim_C3 : ∀ (t ns m0 : List Char) (a : ℚ),
    amountLoop (t.map jsToLower) = some (ns, m0) →
    jsParseFloat (ns.filter (fun c => c ≠ ',')) = some a →
    a ≤ 0 ∨ jsFiniteQ a = false →
    parseExpenseString t = none := by
  intro t ns m0 a h1 h2 h3
  have hea : extractAmount (t.map jsToLower) = none := by
    unfold extractAmount
    split
    · rfl
    · rename_i nm hnm
      rw [h1] at hnm
      obtain rfl : nm = (ns, m0) := (Option.some.inj hnm).symm
      split
      · rfl
      · rename_i v hv
        rw [h2] at hv
        obtain rfl : a = v := Option.some.inj hv
        rw [if_pos h3]
  unfold parseExpenseString
  split
  · rfl
  · simp only [hea]

set_option maxRecDepth 200000 in
/-- Witness for the amended C3 at `£0 5 dollars on lunch`. -/
theorem claim_C3_witness :
    parseExpenseString ("£0 5 dollars on lunch").data = none :=
  claim_C3 (("£0 5 dollars on lunch").data) (("0").data) (("£0").data) 0
    (by decide) (by decide) (Or.inl le_rfl)

set_option maxRecDepth 200000 in
/-- Counterexample to C5: on `5 pounders` the currency word `pound` is a
proper prefix of the longer word `pounders`, yet amount pattern 2 does match
(there is no word-boundary assertion in the source regex), consuming
`5 pound` — so the parsed result is `(5, ers)` instead of the bare-number
fallback reading `(5, pounders)`. -/
theorem claim_C5_counterexample :
    (reSearch amountPattern2 ("5 pounders").data).isSome = true ∧
    amountLoop ("5 pounders").data = some (("5").data, ("5 pound").data) ∧
    parseExpenseString ("5 pounders").data = some (5, ("ers").data) := by decide

/-- C6: `startListening` invoked while the session is already listening is a
no-op: the state (listening flag, transcript, error, instance) is unchanged
and no request is issued to the host capability, so a second capture is
never started. -/
theorem claim_C6 : ∀ (supported : Bool) (startThrows : Option (List Char))
    (s : SpeechState), s.isListening = true →
    startListening supported startThrows s = (s, []) := by
  intro supported startThrows s h
  unfold startListening
  rw [h]
  simp

/-- Witness for C6 at a concrete listening state. -/
theorem claim_C6_witness :
    startListening true none (SpeechState.mk true (("hi").data) none true)
      = (SpeechState.mk true (("hi").data) none true, []) :=
  claim_C6 true none (SpeechState.mk true (("hi").data) none true) rfl

/-- C7: while the processing flag is set, a newly arrived finalized
utterance is not processed: no parse is started, no add-action is invoked,
and the flag stays set. -/
theorem claim_C7 : ∀ transcript : List Char,
    transcriptEffect transcript true = ([], true) := by
  intro transcript
  unfold transcriptEffect
  simp

set_option maxRecDepth 200000 in
/-- Counterexample to C10: on `$5 on coffee on tuesday` the residual text
after amount removal begins with the delimiter keyword `on` with no
non-whitespace text before it, yet the delimiter branch applies (via the
second `on`), and the returned description is `tuesday` — the leading
delimiter word is not retained. -/
theorem claim_C10_counterexample :
    jsTrim (removeFirstOccur (("$5 on coffee on tuesday").data.map jsToLower)
        (("$5").data)) = ("on coffee on tuesday").data ∧
    parseExpenseString ("$5 on coffee on tuesday").data
      = some (5, ("tuesday").data) := by decide

/-! ### Digit-string arithmetic, for the comma-handling claim -/

theorem digitsToNat_aux (l : List Char) :
    ∀ n : Nat, l.foldl (fun n c => 10 * n + (c.toNat - 48)) n
      = n * 10 ^ l.length + digitsToNat l := by
  induction l with
  | nil => intro n; simp [digitsToNat]
  | cons c t ih =>
    intro n
    simp only [List.foldl_cons, digitsToNat, List.length_cons]
    rw [ih (10 * n + (c.toNat - 48)), ih (10 * 0 + (c.toNat - 48))]
    ring

theorem digitsToNat_append (xs ys : List Char) :
    digitsToNat (xs ++ ys) = digitsToNat xs * 10 ^ ys.length + digitsToNat ys := by
  unfold digitsToNat
  rw [List.foldl_append]
  exact digitsToNat_aux ys _

theorem jsParseFloat_digits {l : List Char} (hne : l ≠ [])
    (hdig : ∀ c ∈ l, isJsDigit c = true) :
    jsParseFloat l = some ((digitsToNat l : ℚ)) := by
  unfold jsParseFloat
  have htw : l.takeWhile isJsDigit = l := List.takeWhile_eq_self_iff.mpr hdig
  rw [htw]
  simp only [List.isEmpty_iff, hne, if_neg, List.drop_length, List.head?_nil]
  simp only [reduceCtorEq, if_false, if_neg]
  simp [Rat.mkRat_one]
  rfl

theorem filter_ne_comma_of_digits {l : List Char}
    (hdig : ∀ c ∈ l, isJsDigit c = true) :
    l.filter (fun c => c ≠ ',') = l := by
  apply List.filter_eq_self.mpr
  intro c hc
  have h1 := hdig c hc
  simp only [ne_eq, decide_eq_true_eq]
  intro hcc
  subst hcc
  simp [isJsDigit] at h1

set_option maxRecDepth 200000 in
/-- C9: when the first numeric match has a comma before a 1-2 digit
fractional part, the comma is stripped as a thousands separator before
parsing, so a successful parse returns the concatenated-digit reading —
for a two-digit fractional part one hundred times the comma-as-decimal
reading — and never the comma-as-decimal value itself. -/
theorem claim_C9 : ∀ (t ds fs m0 : List Char) (a : ℚ) (d : List Char),
    amountLoop (t.map jsToLower) = some (ds ++ ',' :: fs, m0) →
    (∀ c ∈ ds, isJsDigit c = true) → (∀ c ∈ fs, isJsDigit c = true) →
    ds ≠ [] → 1 ≤ fs.length → fs.length ≤ 2 →
    parseExpenseString t = some (a, d) →
    a = (digitsToNat (ds ++ fs) : ℚ) ∧
    (fs.length = 2 →
      a = 100 * ((digitsToNat ds : ℚ) + (digitsToNat fs : ℚ) / 100)) ∧
    a ≠ (digitsToNat ds : ℚ) + (digitsToNat fs : ℚ) / 10 ^ fs.length := by
  intro t ds fs m0 a d hloop hds hfs hdsne hfs1 hfs2 hparse
  obtain ⟨-, m0x, hea, -, -⟩ := parseExpenseString_some hparse
  have hpos : 0 < a := (extractAmount_valid hea).1
  -- step 1: the validated amount is the parse of the de-comma-ed digits
  have hval : a = (digitsToNat (ds ++ fs) : ℚ) := by
    unfold extractAmount at hea
    split at hea
    · cases hea
    · rename_i nm hnm
      rw [hloop] at hnm
      obtain rfl : nm = (ds ++ ',' :: fs, m0) := (Option.some.inj hnm).symm
      split at hea
      · cases hea
      · rename_i v hv
        split at hea
        · cases hea
        · have hva : v = a := congrArg Prod.fst (Option.some.inj hea)
          subst hva
          simp only at hv
          have hfilter : (ds ++ ',' :: fs).filter (fun c => c ≠ ',') = ds ++ fs := by
            rw [List.filter_append, filter_ne_comma_of_digits hds]
            have hcons : (',' :: fs).filter (fun c => c ≠ ',')
                = fs.filter (fun c => c ≠ ',') := by
              simp
            rw [hcons, filter_ne_comma_of_digits hfs]
          rw [hfilter] at hv
          have hdigits : ∀ c ∈ ds ++ fs, isJsDigit c = true := by
            intro c hc
            rcases List.mem_append.mp hc with h | h
            · exact hds c h
            · exact hfs c h
          rw [jsParseFloat_digits (by simp [hdsne]) hdigits] at hv
          exact (Option.some.inj hv).symm
  have hsplit : (digitsToNat (ds ++ fs) : ℚ)
      = (digitsToNat ds : ℚ) * 10 ^ fs.length + (digitsToNat fs : ℚ) := by
    rw [digitsToNat_append]
    push_cast
    ring
  refine ⟨hval, ?_, ?_⟩
  · intro h2
    rw [hval, hsplit, h2]
    ring
  · intro heq
    rw [hval, hsplit] at heq
    have hge : (10 : ℚ) ≤ 10 ^ fs.length := by
      calc (10 : ℚ) = 10 ^ 1 := by norm_num
      _ ≤ 10 ^ fs.length := by
        apply pow_le_pow_right₀ (by norm_num) hfs1
    have hpow : (0 : ℚ) < 10 ^ fs.length := by positivity
    have hS : (0 : ℚ) < (digitsToNat ds : ℚ) * 10 ^ fs.length + (digitsToNat fs : ℚ) := by
      rw [← hsplit, ← hval]
      exact hpos
    have hD : (0 : ℚ) ≤ (digitsToNat ds : ℚ) := by positivity
    have hF : (0 : ℚ) ≤ (digitsToNat fs : ℚ) := by positivity
    have heq2 : ((digitsToNat ds : ℚ) * 10 ^ fs.length + (digitsToNat fs : ℚ))
        * 10 ^ fs.length
        = (digitsToNat ds : ℚ) * 10 ^ fs.length + (digitsToNat fs : ℚ) := by
      nth_rewrite 1 [heq]
      rw [add_mul, div_mul_cancel₀ _ (ne_of_gt hpow)]
    linarith [mul_le_mul_of_nonneg_left hge (le_of_lt hS), heq2]

set_option maxRecDepth 200000 in
/-- Witness for C9 at `spent 10,50 on coffee`, which parses to amount 1050
with description `coffee`: 1050 is the concatenated-digit reading, is one
hundred times 10.50, and differs from 10.50. -/
theorem claim_C9_witness :
    (1050 : ℚ) = (digitsToNat ((['1','0'] : List Char) ++ ['5','0']) : ℚ) ∧
    ((['5','0'] : List Char).length = 2 →
      (1050 : ℚ) = 100 * ((digitsToNat (['1','0'] : List Char) : ℚ)
        + (digitsToNat (['5','0'] : List Char) : ℚ) / 100)) ∧
    (1050 : ℚ) ≠ (digitsToNat (['1','0'] : List Char) : ℚ)
      + (digitsToNat (['5','0'] : List Char) : ℚ)
        / 10 ^ (['5','0'] : List Char).length :=
  claim_C9 (("spent 10,50 on coffee").data) ['1','0'] ['5','0']
    (("10,50").data) 1050 (("coffee").data)
    (by decide) (by decide) (by decide) (by decide) (by decide) (by decide)
    (by decide)

theorem mem_matchList_alt_left {a b : RE} {caps : Caps} {s : List Char}
    {rc : List Char × Caps} (h : rc ∈ matchList a caps s) :
    rc ∈ matchList (.alt a b) caps s := by
  show rc ∈ matchList a caps s ++ matchList b caps s
  exact List.mem_append.mpr (Or.inl h)

theorem mem_matchList_alt_right {a b : RE} {caps : Caps} {s : List Char}
    {rc : List Char × Caps} (h : rc ∈ matchList b caps s) :
    rc ∈ matchList (.alt a b) caps s := by
  show rc ∈ matchList a caps s ++ matchList b caps s
  exact List.mem_append.mpr (Or.inr h)

theorem mem_matchList_opt_skip {r : RE} {caps : Caps} {s : List Char} :
    (s, caps) ∈ matchList (.opt r) caps s := by
  show (s, caps) ∈ matchList r caps s ++ [(s, caps)]
  exact List.mem_append.mpr (Or.inr (List.mem_singleton.mpr rfl))

/-- C5 (amended): amount pattern 2 has no word-boundary requirement: for
every input beginning `5 pound` — whatever characters follow, in particular
when `pound` is a proper prefix of a longer word such as `pounders` —
pattern 2 matches, so extraction does not proceed to the bare-number
fallback. -/
theorem claim_C5 : ∀ rest : List Char,
    (reSearch amountPattern2
      ('5' :: ' ' :: 'p' :: 'o' :: 'u' :: 'n' :: 'd' :: rest)).isSome = true := by
  intro rest
  have hword : ∀ c1 : Caps, (rest, c1) ∈
      matchList (.seq (.starCls isJsWs) currencyWordRE) c1
        (' ' :: 'p' :: 'o' :: 'u' :: 'n' :: 'd' :: rest) := by
    intro c1
    apply mem_matchList_seq.mpr
    refine ⟨('p' :: 'o' :: 'u' :: 'n' :: 'd' :: rest, c1), ?_, ?_⟩
    · rw [show matchList (.starCls isJsWs) c1
          (' ' :: 'p' :: 'o' :: 'u' :: 'n' :: 'd' :: rest)
          = [('p' :: 'o' :: 'u' :: 'n' :: 'd' :: rest, c1),
             (' ' :: 'p' :: 'o' :: 'u' :: 'n' :: 'd' :: rest, c1)] from rfl]
      exact List.mem_cons_self _ _
    · show (rest, c1) ∈ matchList currencyWordRE c1
        ('p' :: 'o' :: 'u' :: 'n' :: 'd' :: rest)
      apply mem_matchList_alt_right
      apply mem_matchList_alt_left
      apply mem_matchList_seq.mpr
      refine ⟨(rest, c1), ?_, mem_matchList_opt_skip⟩
      rw [show matchList (lit ['p','o','u','n','d']) c1
          ('p' :: 'o' :: 'u' :: 'n' :: 'd' :: rest) = [(rest, c1)] from rfl]
      exact List.mem_singleton.mpr rfl
  have hmem : (rest, capSet [] 1
      (('5' :: ' ' :: 'p' :: 'o' :: 'u' :: 'n' :: 'd' :: rest).take
        (('5' :: ' ' :: 'p' :: 'o' :: 'u' :: 'n' :: 'd' :: rest).length
          - (' ' :: 'p' :: 'o' :: 'u' :: 'n' :: 'd' :: rest).length)))
      ∈ matchList amountPattern2 []
        ('5' :: ' ' :: 'p' :: 'o' :: 'u' :: 'n' :: 'd' :: rest) := by
    apply mem_matchList_seq.mpr
    refine ⟨(' ' :: 'p' :: 'o' :: 'u' :: 'n' :: 'd' :: rest, capSet [] 1
      (('5' :: ' ' :: 'p' :: 'o' :: 'u' :: 'n' :: 'd' :: rest).take
        (('5' :: ' ' :: 'p' :: 'o' :: 'u' :: 'n' :: 'd' :: rest).length
          - (' ' :: 'p' :: 'o' :: 'u' :: 'n' :: 'd' :: rest).length))),
      ?_, hword _⟩
    apply mem_matchList_grp.mpr
    refine ⟨(' ' :: 'p' :: 'o' :: 'u' :: 'n' :: 'd' :: rest, []), ?_, rfl⟩
    rw [show matchList numRE []
        ('5' :: ' ' :: 'p' :: 'o' :: 'u' :: 'n' :: 'd' :: rest)
        = [(' ' :: 'p' :: 'o' :: 'u' :: 'n' :: 'd' :: rest, [])] from rfl]
    exact List.mem_singleton.mpr rfl
  have hne : matchList amountPattern2 []
      ('5' :: ' ' :: 'p' :: 'o' :: 'u' :: 'n' :: 'd' :: rest) ≠ [] :=
    List.ne_nil_of_mem hmem
  rcases hx : (matchList amountPattern2 []
      ('5' :: ' ' :: 'p' :: 'o' :: 'u' :: 'n' :: 'd' :: rest)).head? with _ | rc
  · exact absurd (List.head?_eq_none_iff.mp hx) hne
  · simp only [reSearch, hx]
    rfl

/-! ### Whitespace appended at either end does not change amount matching -/

theorem ws_mem (c : Char) (h : isJsWs c = true) : c ∈ jsWsChars := by
  simpa [isJsWs] using h

theorem ws_not_digit {c : Char} (h : isJsWs c = true) : isJsDigit c = false := by
  have hm := ws_mem c h
  fin_cases hm <;> decide

theorem ws_not_sym {c : Char} (h : isJsWs c = true) : isCurrencySym c = false := by
  have hm := ws_mem c h
  fin_cases hm <;> decide

theorem ws_not_decSep {c : Char} (h : isJsWs c = true) : isDecSep c = false := by
  have hm := ws_mem c h
  fin_cases hm <;> decide

theorem jsToLower_ws_fix {c : Char} (h : isJsWs c = true) : jsToLower c = c := by
  have hm := ws_mem c h
  fin_cases hm <;> decide

theorem ws_beq_false {ch : Char} (hch : isJsWs ch = false) {c : Char}
    (h : isJsWs c = true) : (c == ch) = false := by
  by_contra hb
  rw [Bool.not_eq_false, beq_iff_eq] at hb
  subst hb
  rw [h] at hch
  cases hch

theorem flatMap_map_inner {α β γ : Type} (L : List α) (f : α → List β)
    (h : β → γ) : (L.flatMap fun x => (f x).map h) = (L.flatMap f).map h := by
  rw [List.map_flatMap]

theorem flatMap_congr_mem {α β : Type} {L : List α} {f g : α → List β}
    (h : ∀ x ∈ L, f x = g x) : L.flatMap f = L.flatMap g := by
  induction L with
  | nil => rfl
  | cons a t ih =>
    simp only [List.flatMap_cons]
    rw [h a (List.mem_cons_self a t), ih (fun x hx => h x (List.mem_cons_of_mem a hx))]

theorem wsAdd1_eps : WsAdd1 .eps := by
  intro c hc caps u
  simp [matchList]

theorem wsAdd1_cls {p : Char → Bool} (hp : ∀ c, isJsWs c = true → p c = false) :
    WsAdd1 (.cls p) := by
  intro c hc caps u
  cases u with
  | nil => simp [matchList, hp c hc]
  | cons a t =>
    show matchList (.cls p) caps (a :: (t ++ [c])) = _
    simp only [matchList]
    by_cases h : p a
    · rw [if_pos h, if_pos h]
      rfl
    · rw [if_neg h, if_neg h]
      rfl

theorem wsAdd1_seq {a b : RE} (ha : WsAdd1 a) (hb : WsAdd1 b) :
    WsAdd1 (.seq a b) := by
  intro c hc caps u
  show (matchList a caps (u ++ [c])).flatMap (fun rc => matchList b rc.2 rc.1) = _
  rw [ha c hc caps u, List.flatMap_map]
  have hpt : (matchList a caps u).flatMap
      (fun rc => matchList b rc.2 (rc.1 ++ [c]))
      = (matchList a caps u).flatMap
        (fun rc => (matchList b rc.2 rc.1).map (fun x => (x.1 ++ [c], x.2))) :=
    flatMap_congr_mem (fun rc _ => hb c hc rc.2 rc.1)
  rw [hpt, flatMap_map_inner]
  rfl

theorem wsAdd1_alt {a b : RE} (ha : WsAdd1 a) (hb : WsAdd1 b) :
    WsAdd1 (.alt a b) := by
  intro c hc caps u
  show matchList a caps (u ++ [c]) ++ matchList b caps (u ++ [c]) = _
  rw [ha c hc caps u, hb c hc caps u, ← List.map_append]
  rfl

theorem wsAdd1_opt {r : RE} (hr : WsAdd1 r) : WsAdd1 (.opt r) := by
  intro c hc caps u
  show matchList r caps (u ++ [c]) ++ [(u ++ [c], caps)] = _
  rw [hr c hc caps u]
  show _ = (matchList r caps u ++ [(u, caps)]).map (fun rc => (rc.1 ++ [c], rc.2))
  rw [List.map_append]
  rfl

theorem takeWhile_append_single_neg {p : Char → Bool} {c : Char}
    (hc : p c = false) (u : List Char) :
    (u ++ [c]).takeWhile p = u.takeWhile p := by
  induction u with
  | nil => simp [List.takeWhile_cons, hc]
  | cons a t ih =>
    show (a :: (t ++ [c])).takeWhile p = _
    rw [List.takeWhile_cons, List.takeWhile_cons]
    by_cases h : p a
    · rw [if_pos h, if_pos h, ih]
    · rw [if_neg h, if_neg h]

theorem wsAdd1_plusCls {p : Char → Bool}
    (hp : ∀ c, isJsWs c = true → p c = false) : WsAdd1 (.plusCls p) := by
  intro c hc caps u
  show (List.range (((u ++ [c]).takeWhile p).length)).map
      (fun k => ((u ++ [c]).drop (((u ++ [c]).takeWhile p).length - k), caps))
    = ((List.range ((u.takeWhile p).length)).map
        (fun k => (u.drop ((u.takeWhile p).length - k), caps))).map
      (fun rc => (rc.1 ++ [c], rc.2))
  rw [takeWhile_append_single_neg (hp c hc) u, List.map_map]
  apply List.map_congr_left
  intro k hk
  rw [List.mem_range] at hk
  have hle : (u.takeWhile p).length - k ≤ u.length := by
    have := (List.takeWhile_sublist p (l := u)).length_le
    omega
  simp only [Function.comp]
  rw [List.drop_append_of_le_length hle]

theorem wsAdd1_starCls {p : Char → Bool}
    (hp : ∀ c, isJsWs c = true → p c = false) : WsAdd1 (.starCls p) := by
  intro c hc caps u
  show (List.range (((u ++ [c]).takeWhile p).length + 1)).map
      (fun k => ((u ++ [c]).drop (((u ++ [c]).takeWhile p).length - k), caps))
    = ((List.range ((u.takeWhile p).length + 1)).map
        (fun k => (u.drop ((u.takeWhile p).length - k), caps))).map
      (fun rc => (rc.1 ++ [c], rc.2))
  rw [takeWhile_append_single_neg (hp c hc) u, List.map_map]
  apply List.map_congr_left
  intro k hk
  rw [List.mem_range] at hk
  have hle : (u.takeWhile p).length - k ≤ u.length := by
    have := (List.takeWhile_sublist p (l := u)).length_le
    omega
  simp only [Function.comp]
  rw [List.drop_append_of_le_length hle]

theorem wsAdd1_grp {i : Nat} {r : RE} (hr : WsAdd1 r) : WsAdd1 (.grp i r) := by
  intro c hc caps u
  show (matchList r caps (u ++ [c])).map
      (fun rc => (rc.1, capSet rc.2 i ((u ++ [c]).take ((u ++ [c]).length - rc.1.length))))
    = ((matchList r caps u).map
        (fun rc => (rc.1, capSet rc.2 i (u.take (u.length - rc.1.length))))).map
      (fun rc => (rc.1 ++ [c], rc.2))
  rw [hr c hc caps u, List.map_map, List.map_map]
  apply List.map_congr_left
  intro rc hm
  obtain ⟨pre, hpre⟩ := matchList_suffix r caps u rc hm
  have hle : rc.1.length ≤ u.length := by
    rw [hpre, List.length_append]
    omega
  simp only [Function.comp]
  have hlen : (u ++ [c]).length - (rc.1 ++ [c]).length = u.length - rc.1.length := by
    simp only [List.length_append, List.length_cons, List.length_nil]
    omega
  rw [hlen, List.take_append_of_le_length (by omega)]

theorem nilWsFail_cls {p : Char → Bool}
    (hp : ∀ c, isJsWs c = true → p c = false) : NilWsFail (.cls p) := by
  refine ⟨fun caps => rfl, fun caps c l hc => ?_⟩
  simp [matchList, hp c hc]

theorem nilWsFail_seq_left {a : RE} (b : RE) (ha : NilWsFail a) :
    NilWsFail (.seq a b) := by
  constructor
  · intro caps
    show (matchList a caps []).flatMap (fun rc => matchList b rc.2 rc.1) = []
    rw [ha.1]
    rfl
  · intro caps c l hc
    show (matchList a caps (c :: l)).flatMap (fun rc => matchList b rc.2 rc.1) = []
    rw [ha.2 caps c l hc]
    rfl

theorem nilWsFail_alt {a b : RE} (ha : NilWsFail a) (hb : NilWsFail b) :
    NilWsFail (.alt a b) := by
  constructor
  · intro caps
    show matchList a caps [] ++ matchList b caps [] = []
    rw [ha.1, hb.1]
    rfl
  · intro caps c l hc
    show matchList a caps (c :: l) ++ matchList b caps (c :: l) = []
    rw [ha.2 caps c l hc, hb.2 caps c l hc]
    rfl

theorem nilWsFail_grp {i : Nat} {r : RE} (hr : NilWsFail r) :
    NilWsFail (.grp i r) := by
  constructor
  · intro caps
    show (matchList r caps []).map _ = []
    rw [hr.1]
    rfl
  · intro caps c l hc
    show (matchList r caps (c :: l)).map _ = []
    rw [hr.2 caps c l hc]
    rfl

theorem nilWsFail_plusCls {p : Char → Bool}
    (hp : ∀ c, isJsWs c = true → p c = false) : NilWsFail (.plusCls p) := by
  refine ⟨fun caps => rfl, fun caps c l hc => ?_⟩
  show (List.range ((List.takeWhile p (c :: l)).length)).map _ = []
  rw [List.takeWhile_cons, if_neg (by rw [hp c hc]; exact Bool.false_ne_true)]
  rfl

theorem nilWsFail_lit {ch : Char} (w : List Char) (hch : isJsWs ch = false) :
    NilWsFail (lit (ch :: w)) :=
  nilWsFail_seq_left _ (nilWsFail_cls (fun c hc => ws_beq_false hch hc))

theorem wsAdd1_lit {w : List Char} (hw : ∀ ch ∈ w, isJsWs ch = false) :
    WsAdd1 (lit w) := by
  induction w with
  | nil => exact wsAdd1_eps
  | cons ch t ih =>
    exact wsAdd1_seq
      (wsAdd1_cls (fun c hc => ws_beq_false (hw ch (List.mem_cons_self ch t)) hc))
      (ih (fun x hx => hw x (List.mem_cons_of_mem ch hx)))

theorem takeWhile_append_of_ne {p : Char → Bool} :
    ∀ u : List Char, u.takeWhile p ≠ u → ∀ v, (u ++ v).takeWhile p = u.takeWhile p := by
  intro u
  induction u with
  | nil => intro h; exact absurd rfl h
  | cons a t ih =>
    intro h v
    rw [List.cons_append, List.takeWhile_cons, List.takeWhile_cons]
    by_cases ha : p a
    · rw [if_pos ha, if_pos ha]
      rw [List.takeWhile_cons, if_pos ha] at h
      have ht : t.takeWhile p ≠ t := by
        intro he
        exact h (by rw [he])
      rw [ih ht v]
    · rw [if_neg ha, if_neg ha]

theorem wsAdd1_seq_starWs {b : RE} (hb1 : NilWsFail b) (hb2 : WsAdd1 b) :
    WsAdd1 (.seq (.starCls isJsWs) b) := by
  intro c hc caps u
  show ((List.range (((u ++ [c]).takeWhile isJsWs).length + 1)).map
      (fun k => ((u ++ [c]).drop (((u ++ [c]).takeWhile isJsWs).length - k), caps))).flatMap
      (fun rc => matchList b rc.2 rc.1)
    = (((List.range ((u.takeWhile isJsWs).length + 1)).map
        (fun k => (u.drop ((u.takeWhile isJsWs).length - k), caps))).flatMap
        (fun rc => matchList b rc.2 rc.1)).map (fun rc => (rc.1 ++ [c], rc.2))
  have key : ∀ n : ℕ, n ≤ u.length →
      ((List.range (n + 1)).map
        (fun k => ((u ++ [c]).drop (n - k), caps))).flatMap
        (fun rc => matchList b rc.2 rc.1)
      = (((List.range (n + 1)).map (fun k => (u.drop (n - k), caps))).flatMap
          (fun rc => matchList b rc.2 rc.1)).map (fun rc => (rc.1 ++ [c], rc.2)) := by
    intro n hn
    rw [List.flatMap_map, List.flatMap_map, ← flatMap_map_inner]
    apply flatMap_congr_mem
    intro k hk
    rw [List.mem_range] at hk
    have hle : n - k ≤ u.length := by omega
    rw [List.drop_append_of_le_length hle]
    exact hb2 c hc caps (u.drop (n - k))
  by_cases hB : u.takeWhile isJsWs = u
  · have htw : (u ++ [c]).takeWhile isJsWs = u ++ [c] := by
      apply List.takeWhile_eq_self_iff.mpr
      intro x hx
      rcases List.mem_append.mp hx with h | h
      · exact List.takeWhile_eq_self_iff.mp hB x h
      · rw [List.mem_singleton.mp h]
        exact hc
    have hn' : ((u ++ [c]).takeWhile isJsWs).length = u.length + 1 := by
      rw [htw]
      simp
    have hn : (u.takeWhile isJsWs).length = u.length := by rw [hB]
    rw [hn', hn]
    rw [List.range_succ_eq_map (u.length + 1), List.map_cons, List.flatMap_cons]
    have hdropall : (u ++ [c]).drop (u.length + 1 - 0) = [] := by
      have hlen : u.length + 1 - 0 = (u ++ [c]).length := by simp
      rw [hlen, List.drop_length]
    rw [hdropall, hb1.1, List.nil_append, List.map_map]
    have hidx : ((fun k => ((u ++ [c]).drop (u.length + 1 - k), caps)) ∘ (· + 1))
        = (fun k => ((u ++ [c]).drop (u.length - k), caps)) := by
      funext k
      simp only [Function.comp]
      have harith : u.length + 1 - (k + 1) = u.length - k := by omega
      rw [harith]
    rw [hidx]
    exact key u.length le_rfl
  · have htw : (u ++ [c]).takeWhile isJsWs = u.takeWhile isJsWs :=
      takeWhile_append_of_ne u hB [c]
    rw [htw]
    exact key (u.takeWhile isJsWs).length (List.takeWhile_sublist isJsWs).length_le

theorem nilWsFail_currencyWord : NilWsFail currencyWordRE := by
  unfold currencyWordRE
  refine nilWsFail_alt (nilWsFail_seq_left _ (nilWsFail_lit _ (by decide)))
    (nilWsFail_alt (nilWsFail_seq_left _ (nilWsFail_lit _ (by decide)))
      (nilWsFail_alt (nilWsFail_seq_left _ (nilWsFail_lit _ (by decide)))
        (nilWsFail_alt (nilWsFail_lit _ (by decide))
          (nilWsFail_alt (nilWsFail_lit _ (by decide))
            (nilWsFail_alt (nilWsFail_lit _ (by decide))
              (nilWsFail_lit _ (by decide)))))))

theorem wsAdd1_sCls : WsAdd1 (.opt (.cls (fun x => x == 's'))) :=
  wsAdd1_opt (wsAdd1_cls (fun c hc => ws_beq_false (by decide) hc))

theorem wsAdd1_currencyWord : WsAdd1 currencyWordRE := by
  unfold currencyWordRE
  refine wsAdd1_alt (wsAdd1_seq (wsAdd1_lit (by decide)) wsAdd1_sCls)
    (wsAdd1_alt (wsAdd1_seq (wsAdd1_lit (by decide)) wsAdd1_sCls)
      (wsAdd1_alt (wsAdd1_seq (wsAdd1_lit (by decide)) wsAdd1_sCls)
        (wsAdd1_alt (wsAdd1_lit (by decide))
          (wsAdd1_alt (wsAdd1_lit (by decide))
            (wsAdd1_alt (wsAdd1_lit (by decide)) (wsAdd1_lit (by decide)))))))

theorem nilWsFail_num : NilWsFail numRE :=
  nilWsFail_seq_left _ (nilWsFail_plusCls (fun _ hc => ws_not_digit hc))

theorem wsAdd1_num : WsAdd1 numRE :=
  wsAdd1_seq (wsAdd1_plusCls (fun _ hc => ws_not_digit hc))
    (wsAdd1_opt (wsAdd1_seq (wsAdd1_cls (fun _ hc => ws_not_decSep hc))
      (wsAdd1_seq (wsAdd1_cls (fun _ hc => ws_not_digit hc))
        (wsAdd1_opt (wsAdd1_cls (fun _ hc => ws_not_digit hc))))))

theorem nilWsFail_pattern1 : NilWsFail amountPattern1 :=
  nilWsFail_seq_left _ (nilWsFail_cls (fun _ hc => ws_not_sym hc))

theorem wsAdd1_pattern1 : WsAdd1 amountPattern1 :=
  wsAdd1_seq (wsAdd1_cls (fun _ hc => ws_not_sym hc))
    (wsAdd1_seq_starWs (nilWsFail_grp nilWsFail_num) (wsAdd1_grp wsAdd1_num))

theorem nilWsFail_pattern2 : NilWsFail amountPattern2 :=
  nilWsFail_seq_left _ (nilWsFail_grp nilWsFail_num)

theorem wsAdd1_pattern2 : WsAdd1 amountPattern2 :=
  wsAdd1_seq (wsAdd1_grp wsAdd1_num)
    (wsAdd1_seq_starWs nilWsFail_currencyWord wsAdd1_currencyWord)

theorem nilWsFail_pattern3 : NilWsFail amountPattern3 :=
  nilWsFail_grp nilWsFail_num

theorem wsAdd1_pattern3 : WsAdd1 amountPattern3 :=
  wsAdd1_grp wsAdd1_num

theorem reSearch_nil_eq (re : RE) :
    reSearch re [] = match (matchList re [] []).head? with
      | some rc => some (([] : List Char), rc.2)
      | none => none := rfl

theorem reSearch_cons_eq (re : RE) (c : Char) (t : List Char) :
    reSearch re (c :: t) = match (matchList re [] (c :: t)).head? with
      | some rc => some ((c :: t).take ((c :: t).length - rc.1.length), rc.2)
      | none => reSearch re t := rfl

theorem reSearch_nil_of_nilWsFail {re : RE} (h1 : NilWsFail re) :
    reSearch re [] = none := by
  rw [reSearch_nil_eq, h1.1]
  rfl

theorem reSearch_cons_ws {re : RE} (h1 : NilWsFail re) {c : Char}
    (hc : isJsWs c = true) (v : List Char) :
    reSearch re (c :: v) = reSearch re v := by
  rw [reSearch_cons_eq, h1.2 [] c v hc]
  rfl

theorem reSearch_ws_left {re : RE} (h1 : NilWsFail re) :
    ∀ pre : List Char, (∀ c ∈ pre, isJsWs c = true) →
    ∀ v, reSearch re (pre ++ v) = reSearch re v := by
  intro pre
  induction pre with
  | nil => intro _ v; rfl
  | cons c t ih =>
    intro hws v
    rw [List.cons_append, reSearch_cons_ws h1 (hws c (List.mem_cons_self c t))]
    exact ih (fun x hx => hws x (List.mem_cons_of_mem c hx)) v

theorem reSearch_append_one_ws {re : RE} (h1 : NilWsFail re) (h2 : WsAdd1 re)
    {c : Char} (hc : isJsWs c = true) :
    ∀ u, reSearch re (u ++ [c]) = reSearch re u := by
  intro u
  induction u with
  | nil =>
    have hm : matchList re [] ([c]) = [] := by
      have := h2 c hc [] []
      rw [List.nil_append] at this
      rw [this, h1.1]
      rfl
    rw [List.nil_append, reSearch_cons_eq, hm, reSearch_nil_of_nilWsFail h1]
    rfl
  | cons a t ih =>
    have hm := h2 c hc [] (a :: t)
    rw [List.cons_append] at hm
    rw [List.cons_append, reSearch_cons_eq re a (t ++ [c]), reSearch_cons_eq re a t]
    cases hh : (matchList re [] (a :: t)).head? with
    | none =>
      have hh' : (matchList re [] (a :: (t ++ [c]))).head? = none := by
        rw [hm, List.head?_map, hh]
        rfl
      rw [hh']
      exact ih
    | some rc =>
      have hh' : (matchList re [] (a :: (t ++ [c]))).head?
          = some (rc.1 ++ [c], rc.2) := by
        rw [hm, List.head?_map, hh]
        rfl
      rw [hh']
      show some ((a :: (t ++ [c])).take
          ((a :: (t ++ [c])).length - (rc.1 ++ [c]).length), rc.2)
        = some ((a :: t).take ((a :: t).length - rc.1.length), rc.2)
      have hmem : rc ∈ matchList re [] (a :: t) := head?_mem hh
      obtain ⟨pre, hpre⟩ := matchList_suffix re [] (a :: t) rc hmem
      have hle : rc.1.length ≤ (a :: t).length := by
        rw [hpre]
        simp
      have hlen : (a :: (t ++ [c])).length - (rc.1 ++ [c]).length
          = (a :: t).length - rc.1.length := by
        simp only [List.length_cons, List.length_append, List.length_nil]
        omega
      rw [hlen, show (a :: (t ++ [c])) = (a :: t) ++ [c] from rfl,
        List.take_append_of_le_length (Nat.sub_le _ _)]

theorem reSearch_ws_right {re : RE} (h1 : NilWsFail re) (h2 : WsAdd1 re)
    (v : List Char) :
    ∀ suf : List Char, (∀ c ∈ suf, isJsWs c = true) →
    reSearch re (v ++ suf) = reSearch re v := by
  intro suf
  induction suf using List.reverseRecOn with
  | nil => intro _; rw [List.append_nil]
  | append_singleton l a ih =>
    intro hws
    rw [← List.append_assoc,
      reSearch_append_one_ws h1 h2 (hws a (by simp)) (v ++ l)]
    exact ih (fun x hx => hws x (List.mem_append_left _ hx))

theorem map_jsToLower_ws {l : List Char} (h : ∀ c ∈ l, isJsWs c = true) :
    l.map jsToLower = l := by
  have heq : l.map jsToLower = l.map id :=
    List.map_congr_left (fun c hc => jsToLower_ws_fix (h c hc))
  rw [heq, List.map_id]

theorem amountLoop_ws_invariant {pre suf v : List Char}
    (hpre : ∀ c ∈ pre, isJsWs c = true) (hsuf : ∀ c ∈ suf, isJsWs c = true) :
    amountLoop (pre ++ v ++ suf) = amountLoop v := by
  unfold amountLoop
  rw [reSearch_ws_right nilWsFail_pattern1 wsAdd1_pattern1 _ _ hsuf,
    reSearch_ws_left nilWsFail_pattern1 pre hpre,
    reSearch_ws_right nilWsFail_pattern2 wsAdd1_pattern2 _ _ hsuf,
    reSearch_ws_left nilWsFail_pattern2 pre hpre,
    reSearch_ws_right nilWsFail_pattern3 wsAdd1_pattern3 _ _ hsuf,
    reSearch_ws_left nilWsFail_pattern3 pre hpre]

/-- C8: amount extraction is invariant under added leading/trailing
whitespace and changes of letter case: lower-casing both variants equal
means they differ only in case. -/
theorem claim_C8 : ∀ t tv pre suf : List Char,
    (∀ c ∈ pre, isJsWs c = true) → (∀ c ∈ suf, isJsWs c = true) →
    tv.map jsToLower = t.map jsToLower →
    (extractAmount ((pre ++ tv ++ suf).map jsToLower)).map Prod.fst
      = (extractAmount (t.map jsToLower)).map Prod.fst := by
  intro t tv pre suf hpre hsuf hcase
  have hmap : (pre ++ tv ++ suf).map jsToLower
      = pre ++ t.map jsToLower ++ suf := by
    rw [List.map_append, List.map_append, map_jsToLower_ws hpre,
      map_jsToLower_ws hsuf, hcase]
  have hEA : extractAmount (pre ++ t.map jsToLower ++ suf)
      = extractAmount (t.map jsToLower) := by
    unfold extractAmount
    rw [amountLoop_ws_invariant hpre hsuf]
  rw [hmap, hEA]

/-- Witness for C8: an upper-case, whitespace-padded variant of
`Spent $10.50 on coffee` extracts the same amount. -/
theorem claim_C8_witness :
    (extractAmount ((([' '] ++ ("SPENT $10.50 ON Coffee").data
        ++ [' ', '\t']).map jsToLower))).map Prod.fst
      = (extractAmount ((("Spent $10.50 on coffee").data.map jsToLower))).map
          Prod.fst :=
  claim_C8 (("Spent $10.50 on coffee").data) (("SPENT $10.50 ON Coffee").data)
    [' '] [' ', '\t'] (by decide) (by decide) (by decide)

/-! ### A leading delimiter keyword survives the description cleanup -/

theorem rdropWhile_cons_neg {p : Char → Bool} {c : Char} (hc : p c = false)
    (l : List Char) :
    List.rdropWhile p (c :: l) = c :: List.rdropWhile p l := by
  rw [List.rdropWhile, List.rdropWhile, List.reverse_cons, List.dropWhile_append]
  by_cases h : (l.reverse.dropWhile p).isEmpty
  · rw [if_pos h]
    rw [List.isEmpty_iff] at h
    rw [h]
    have hsing : List.dropWhile p [c] = [c] := by
      rw [List.dropWhile_cons, if_neg (by rw [hc]; exact Bool.false_ne_true)]
    rw [hsing]
    rfl
  · rw [if_neg h, List.reverse_append]
    rfl

theorem rdropWhile_append_nonp {p : Char → Bool} :
    ∀ (w : List Char), (∀ c ∈ w, p c = false) → ∀ x : List Char,
    List.rdropWhile p (w ++ x) = w ++ List.rdropWhile p x := by
  intro w
  induction w with
  | nil => intro _ x; rfl
  | cons c t ih =>
    intro hw x
    rw [List.cons_append, rdropWhile_cons_neg (hw c (List.mem_cons_self c t)),
      ih (fun y hy => hw y (List.mem_cons_of_mem c hy)) x]
    rfl

theorem jsTrim_keyword_prefix {c0 : Char} {w x : List Char}
    (hws : ∀ c ∈ c0 :: w, isJsWs c = false) :
    jsTrim ((c0 :: w) ++ x) = (c0 :: w) ++ List.rdropWhile isJsWs x := by
  rw [jsTrim_eq]
  rw [List.cons_append, List.dropWhile_cons,
    if_neg (by rw [hws c0 (List.mem_cons_self c0 w)]; exact Bool.false_ne_true)]
  rw [← List.cons_append]
  exact rdropWhile_append_nonp (c0 :: w) hws x

theorem matchList_fillerTrail_nonws_head {c : Char} (hc : isJsWs c = false)
    (caps : Caps) (l : List Char) :
    matchList fillerTrailRE caps (c :: l) = [] := by
  show (matchList (.plusCls isJsWs) caps (c :: l)).flatMap
    (fun rc => matchList (.seq fillerWordsRE .lineEnd) rc.2 rc.1) = []
  have hp : matchList (.plusCls isJsWs) caps (c :: l) = [] := by
    show (List.range ((List.takeWhile isJsWs (c :: l)).length)).map _ = []
    rw [List.takeWhile_cons, if_neg (by rw [hc]; exact Bool.false_ne_true)]
    rfl
  rw [hp]
  rfl

theorem reSearch_fillerTrail_skip :
    ∀ (w : List Char), (∀ c ∈ w, isJsWs c = false) → ∀ x : List Char,
    reSearch fillerTrailRE (w ++ x) = reSearch fillerTrailRE x := by
  intro w
  induction w with
  | nil => intro _ x; rfl
  | cons c t ih =>
    intro hw x
    rw [List.cons_append, reSearch_cons_eq,
      matchList_fillerTrail_nonws_head (hw c (List.mem_cons_self c t))]
    exact ih (fun y hy => hw y (List.mem_cons_of_mem c hy)) x

theorem reSearch_consumed_le {re : RE} {s m : List Char} {caps : Caps}
    (h : reSearch re s = some (m, caps)) : m.length ≤ s.length := by
  obtain ⟨pre, suf, rest, h1, -, h3⟩ := reSearch_some_mem h
  rw [h3, h1]
  calc (suf.take (suf.length - rest.length)).length ≤ suf.length := by
        rw [List.length_take]
        omega
  _ ≤ (pre ++ suf).length := by
        rw [List.length_append]
        omega

theorem stripTrailFiller_keyword_prefix {w x : List Char}
    (hws : ∀ c ∈ w, isJsWs c = false) :
    ∃ x', stripTrailFiller (w ++ x) = w ++ x' := by
  unfold stripTrailFiller
  rw [reSearch_fillerTrail_skip w hws x]
  cases hx : reSearch fillerTrailRE x with
  | none => exact ⟨x, rfl⟩
  | some rc =>
    refine ⟨x.take (x.length - rc.1.length), ?_⟩
    have hle : rc.1.length ≤ x.length := by
      obtain ⟨m, caps⟩ := rc
      exact reSearch_consumed_le hx
    have hlen : (w ++ x).length - rc.1.length
        = w.length + (x.length - rc.1.length) := by
      rw [List.length_append]
      omega
    show (w ++ x).take ((w ++ x).length - rc.1.length)
      = w ++ x.take (x.length - rc.1.length)
    rw [hlen, List.take_append_eq_append_take, List.take_of_length_le (by omega),
      Nat.add_sub_cancel_left]

theorem dropPunctEnds_keyword_prefix {c0 : Char} {w x : List Char}
    (hp : ∀ c ∈ c0 :: w, isPunctCls c = false) :
    dropPunctEnds ((c0 :: w) ++ x) = (c0 :: w) ++ List.rdropWhile isPunctCls x := by
  unfold dropPunctEnds
  rw [dropTrailWhile_eq_rdropWhile]
  rw [List.cons_append, List.dropWhile_cons,
    if_neg (by rw [hp c0 (List.mem_cons_self c0 w)]; exact Bool.false_ne_true)]
  rw [← List.cons_append]
  exact rdropWhile_append_nonp (c0 :: w) hp x

theorem descCleanup_keyword_head {c0 : Char} {w x : List Char}
    (hws : ∀ c ∈ c0 :: w, isJsWs c = false)
    (hpunct : ∀ c ∈ c0 :: w, isPunctCls c = false)
    (hfill : ∀ (caps : Caps) (l : List Char),
      matchList fillerWordsRE caps (c0 :: l) = []) :
    ∃ x', descCleanup ((c0 :: w) ++ x) = (c0 :: w) ++ x' := by
  unfold descCleanup
  have hlead : stripLeadFiller ((c0 :: w) ++ x) = (c0 :: w) ++ x := by
    unfold stripLeadFiller
    have hfl : matchList fillerLeadRE [] ((c0 :: w) ++ x) = [] := by
      show (matchList fillerWordsRE [] ((c0 :: w) ++ x)).flatMap _ = []
      rw [List.cons_append, hfill [] (w ++ x)]
      rfl
    rw [hfl]
    rfl
  rw [hlead, jsTrim_keyword_prefix hws]
  obtain ⟨x2, hx2⟩ := stripTrailFiller_keyword_prefix
    (w := c0 :: w) (x := List.rdropWhile isJsWs x) hws
  rw [hx2, jsTrim_keyword_prefix hws, dropPunctEnds_keyword_prefix hpunct,
    jsTrim_keyword_prefix hws]
  exact ⟨_, rfl⟩

theorem fillerWords_head_o (caps : Caps) (l : List Char) :
    matchList fillerWordsRE caps ('o' :: l) = [] := by
  simp [fillerWordsRE, lit, matchList]

theorem fillerWords_head_f (caps : Caps) (l : List Char) :
    matchList fillerWordsRE caps ('f' :: l) = [] := by
  simp [fillerWordsRE, lit, matchList]

set_option maxRecDepth 1000 in
/-- C10 (amended): when the residual text after amount removal begins with a
delimiter keyword (`on` or `for`) with no non-whitespace text before it, and
the delimiter regexes find no occurrence with preceding text anywhere in the
residual, the delimiter branch does not apply and the delimiter word is
retained at the front of the returned description. -/
theorem claim_C10 : ∀ (t : List Char) (am : ℚ × List Char)
    (kw rest : List Char),
    kw = ['o','n'] ∨ kw = ['f','o','r'] →
    extractAmount (t.map jsToLower) = some am →
    jsTrim (removeFirstOccur (t.map jsToLower) am.2) = kw ++ rest →
    reSearch onRE (kw ++ rest) = none →
    reSearch forRE (kw ++ rest) = none →
    ∃ d', parseExpenseString t = some (am.1, kw ++ d') := by
  intro t am kw rest hkw hea hrem hon hfor
  have hguard : jsTrim t ≠ [] := by
    intro hg
    have hws := all_ws_of_jsTrim_nil hg
    have hloop : amountLoop (t.map jsToLower) = none := by
      rw [map_jsToLower_ws hws]
      unfold amountLoop
      have h1 := reSearch_ws_left nilWsFail_pattern1 t hws []
      rw [List.append_nil, reSearch_nil_of_nilWsFail nilWsFail_pattern1] at h1
      have h2 := reSearch_ws_left nilWsFail_pattern2 t hws []
      rw [List.append_nil, reSearch_nil_of_nilWsFail nilWsFail_pattern2] at h2
      have h3 := reSearch_ws_left nilWsFail_pattern3 t hws []
      rw [List.append_nil, reSearch_nil_of_nilWsFail nilWsFail_pattern3] at h3
      rw [h1, h2, h3]
    unfold extractAmount at hea
    rw [hloop] at hea
    cases hea
  obtain ⟨d', hd'⟩ : ∃ d',
      extractDescription (kw ++ rest) = kw ++ d' := by
    unfold extractDescription
    rw [hon, hfor]
    rcases hkw with rfl | rfl
    · exact @descCleanup_keyword_head 'o' ['n'] rest
        (by decide) (by decide) fillerWords_head_o
    · exact @descCleanup_keyword_head 'f' ['o','r'] rest
        (by decide) (by decide) fillerWords_head_f
  refine ⟨d', ?_⟩
  have hkwne : kw ++ d' ≠ [] := by
    rcases hkw with rfl | rfl <;> simp
  unfold parseExpenseString
  rw [if_neg hguard]
  simp only [hea, hrem, hd']
  rw [if_neg hkwne]

set_option maxRecDepth 200000 in
/-- Witness for the amended C10 at both delimiter keywords: the residual of
`$5 on coffee` is `on coffee` and the residual of `$5 for coffee` is
`for coffee`; in both, no delimiter occurrence has preceding text, and the
returned description keeps the leading keyword. -/
theorem claim_C10_witness :
    (∃ d', parseExpenseString (("$5 on coffee").data)
      = some ((5 : ℚ), ['o','n'] ++ d')) ∧
    (∃ d', parseExpenseString (("$5 for coffee").data)
      = some ((5 : ℚ), ['f','o','r'] ++ d')) :=
  ⟨claim_C10 (("$5 on coffee").data) ((5 : ℚ), ("$5").data) ['o','n']
      ((" coffee").data) (Or.inl rfl)
      (by decide) (by decide) (by decide) (by decide),
    claim_C10 (("$5 for coffee").data) ((5 : ℚ), ("$5").data) ['f','o','r']
      ((" coffee").data) (Or.inr rfl)
      (by decide) (by decide) (by decide) (by decide)⟩
